import Mathlib

/-!
Verification of the layered configuration store (`pdm/project/config.py`).

The Python module defines a single class `Config`, a dict-like layered
configuration store.  This file gives a shallow embedding of that module:

* TOML scalar values are `Value`, nested TOML documents are `Doc`
  (a table is an insertion-ordered association list, mirroring Python dicts);
* Python `dict` operations are modelled on association lists:
  `alookup` (membership/`[]`), `upsert` (`d[k] = v`, which keeps the position
  of an existing key and appends a fresh one), `aupdate` (`d.update(other)`);
* file-system paths are segment lists, and the file system itself is an
  association list from paths to parsed documents; reading a missing path
  yields `none` (the path "is not a file");
* Python exceptions are an explicit `ConfigError` value and fallible
  operations return `Except ConfigError _`; an operation that raises before
  mutating anything is modelled by returning `.error` (no new state).

Every definition below is translated directly from the source; helper
notions used only inside proofs (`nflat`, `wfEntries`, ...) are marked as such.
-/

set_option autoImplicit false

namespace PdmConfig

/-- A TOML scalar value (string, boolean or number). -/
inductive Value where
  | vStr (s : String)
  | vBool (b : Bool)
  | vInt (n : Int)
  deriving DecidableEq

/-- A nested TOML document node: a scalar leaf, or a table whose entries are
an insertion-ordered association list (mirroring a Python dict). -/
inductive Doc where
  | scalar (v : Value)
  | table (entries : List (String × Doc))

/-- Boolean structural equality for `Doc` (needed because `deriving
DecidableEq` does not handle the nested inductive). -/
def Doc.beq : Doc → Doc → Bool
  | .scalar v, .scalar w => v = w
  | .table es, .table fs => entsBeq es fs
  | _, _ => false
where
  entsBeq : List (String × Doc) → List (String × Doc) → Bool
    | [], [] => true
    | (k, d) :: t, (k', d') :: t' => k = k' && Doc.beq d d' && entsBeq t t'
    | _, _ => false

theorem Doc.beq_iff : ∀ a b : Doc, Doc.beq a b = true ↔ a = b
  | .scalar v, .scalar w => by simp [Doc.beq]
  | .scalar v, .table fs => by simp [Doc.beq]
  | .table es, .scalar w => by simp [Doc.beq]
  | .table es, .table fs => by
    simp only [Doc.beq, Doc.table.injEq]
    exact entsBeq_iff es fs
where
  entsBeq_iff : ∀ es fs : List (String × Doc), Doc.beq.entsBeq es fs = true ↔ es = fs
    | [], [] => by simp [Doc.beq.entsBeq]
    | [], _ :: _ => by simp [Doc.beq.entsBeq]
    | _ :: _, [] => by simp [Doc.beq.entsBeq]
    | (k, d) :: t, (k', d') :: t' => by
      simp only [Doc.beq.entsBeq, Bool.and_eq_true, List.cons.injEq,
        Prod.mk.injEq, decide_eq_true_eq]
      rw [Doc.beq_iff d d', entsBeq_iff t t']

instance : DecidableEq Doc := fun a b =>
  decidable_of_iff (Doc.beq a b = true) (Doc.beq_iff a b)

/-- A flat mapping from dotted keys to scalar values (a flattened layer). -/
abbrev FlatMap := List (String × Value)

/-- The entry list of a table / parsed document. -/
abbrev Entries := List (String × Doc)

/-- A file-system path, as its list of segments. -/
abbrev PathSegs := List String

/-- The file system: an association list from paths to parsed documents.
A path bound in the list "is a file"; looking up any other path fails. -/
abbrev FS := List (PathSegs × Entries)

/-- The keys of an association list, in order. -/
def keysOf {α β : Type} (m : List (α × β)) : List α := m.map Prod.fst

/-- Python `d[k]` / `k in d` on an association list: first binding wins. -/
def alookup {α β : Type} [DecidableEq α] : List (α × β) → α → Option β
  | [], _ => none
  | (k', v) :: rest, k => if k' = k then some v else alookup rest k

/-- Python `d[k] = v` on an insertion-ordered dict: an existing key keeps its
position and gets the new value, a fresh key is appended at the end. -/
def upsert {α β : Type} [DecidableEq α] : List (α × β) → α → β → List (α × β)
  | [], k, v => [(k, v)]
  | (k', v') :: rest, k, v =>
      if k' = k then (k, v) :: rest else (k', v') :: upsert rest k v

/-- Python `m.update(other)`: fold `upsert` over `other` left to right. -/
def aupdate {α β : Type} [DecidableEq α] (m other : List (α × β)) : List (α × β) :=
  other.foldl (fun acc p => upsert acc p.1 p.2) m

/-- Split a character list on a separator character; `splitOnChar c [] = [[]]`,
matching Python `"".split(".") == [""]`. -/
def splitOnChar (c : Char) : List Char → List (List Char)
  | [] => [[]]
  | x :: xs =>
    if x = c then [] :: splitOnChar c xs
    else
      match splitOnChar c xs with
      | [] => [[x]]
      | h :: t => (x :: h) :: t

/-- Python `key.split(".")`. -/
def splitDot (s : String) : List String :=
  (splitOnChar '.' s.data).map (fun l => ⟨l⟩)

/-- The dotted-key constructor `f"\x7bk\x7d.\x7bsub_k\x7d"` of `get_item`. -/
def joinDot (a b : String) : String := a ++ "." ++ b

/-- Python `value.lower()` (character-wise lower-casing). -/
def strLower (s : String) : String := ⟨s.data.map Char.toLower⟩

/-- `Config.CONFIG_ITEMS`: config name ↦ (description, not_for_project). -/
def CONFIG_ITEMS : List (String × String × Bool) :=
  [ ("cache_dir", ("The root directory of cached files", true)),
    ("python.path", ("The Python interpreter path", false)),
    ("python.use_pyenv", ("Use the pyenv interpreter", false)),
    ("pypi.url",
      ("The URL of PyPI mirror, defaults to https://pypi.org/simple", false)),
    ("pypi.verify_ssl", ("Verify SSL certificate when query PyPI", false)) ]

/-- `Config.DEFAULT_CONFIG`.  The values of `appdirs.user_cache_dir("pdm")`
and `get_pypi_source()` come from external collaborators (OS paths, the
pypi resolver), so they are parameters of the embedding. -/
def DEFAULT_CONFIG (user_cache_dir : String) (pypi_source : FlatMap) : FlatMap :=
  aupdate
    [ ("cache_dir", Value.vStr user_cache_dir),
      ("python.use_pyenv", Value.vBool true) ]
    pypi_source

/-- `Config.HOME_CONFIG = Path.home() / ".pdm" / "config.toml"`, with
`Path.home()` a parameter. -/
def HOME_CONFIG (home : PathSegs) : PathSegs := home ++ [".pdm", "config.toml"]

/-- The inner `get_item` closure of `Config.load_config`: flatten a parsed
document into dotted keys, accumulating into the Python dict `result`
(threaded here as `acc`). -/
def get_item (acc : FlatMap) : Entries → FlatMap
  | [] => acc
  | (k, Doc.scalar v) :: rest => get_item (upsert acc k v) rest
  | (k, Doc.table sub) :: rest =>
      get_item (aupdate acc ((get_item [] sub).map (fun p => (joinDot k p.1, p.2)))) rest

/-- `Config.load_config`: an empty mapping when the path is not a file,
otherwise the flattened parse of the file. -/
def load_config (fs : FS) (file_path : PathSegs) : FlatMap :=
  match alookup fs file_path with
  | none => []
  | some doc => get_item [] doc

/-- The Python exceptions raised by the module. -/
inductive ConfigError where
  | noConfigError (key : String)
  | valueError (msg : String)
  | keyError (key : String)
  | typeError
  | notImplementedError
  deriving DecidableEq

/-- The state of a `Config` object (`self.*` attributes). -/
structure Config where
  project_root : PathSegs
  data : FlatMap
  dirty : FlatMap
  project_config_file : PathSegs
  home_config_file : PathSegs
  project_config : FlatMap
  home_config : FlatMap
  deriving DecidableEq

/-- `Config.__init__`: seed `data` with the defaults, load both layer files,
then merge home first and project second. -/
def Config.init (home : PathSegs) (user_cache_dir : String) (pypi_source : FlatMap)
    (project_root : PathSegs) (fs : FS) : Config :=
  let data := DEFAULT_CONFIG user_cache_dir pypi_source
  let project_config_file := project_root ++ [".pdm.toml"]
  let home_config_file := HOME_CONFIG home ++ ["config.toml"]
  let project_config := load_config fs project_config_file
  let home_config := load_config fs home_config_file
  { project_root := project_root
    data := aupdate (aupdate data home_config) project_config
    dirty := []
    project_config_file := project_config_file
    home_config_file := home_config_file
    project_config := project_config
    home_config := home_config }

/-- The list comprehension `[k for k in self._dirty if self.CONFIG_ITEMS[k][1]]`
of `save_config`; `CONFIG_ITEMS[k]` raises `KeyError` on an unknown key. -/
def notForProjectKeysE : FlatMap → Except ConfigError (List String)
  | [] => .ok []
  | (k, _) :: rest =>
    match alookup CONFIG_ITEMS k with
    | none => .error (.keyError k)
    | some item =>
      match notForProjectKeysE rest with
      | .error e => .error e
      | .ok tail => .ok (if item.2 then k :: tail else tail)

/-- One step of the dotted-key splitting loop of `save_config`: assign
`value` at path `parts` inside the document under construction, creating
intermediate tables with `setdefault(part, \x7b\x7d)`.  Descending into an
existing scalar raises in Python (`TypeError`/`AttributeError`): `none`. -/
def insertPath : Entries → List String → Value → Option Entries
  | _, [], _ => none
  | es, [last], v => some (upsert es last (Doc.scalar v))
  | es, part :: next :: rest, v =>
    match alookup es part with
    | some (Doc.table sub) =>
        (insertPath sub (next :: rest) v).map (fun sub' => upsert es part (Doc.table sub'))
    | some (Doc.scalar _) => none
    | none =>
        (insertPath [] (next :: rest) v).map (fun sub' => es ++ [(part, Doc.table sub')])

/-- The `toml_data` construction loop of `save_config`: rebuild a nested
document from a flat dotted-key mapping. -/
def unflatten (m : FlatMap) : Option Entries :=
  m.foldlM (fun acc p => insertPath acc (splitDot p.1) p.2) []

/-- `Config.save_config`: guard against project-restricted dirty keys, merge
`dirty` into the target layer, rebuild the nested document and write it to
the target file, then clear `dirty`.  (`file_path.parent.mkdir` touches only
the directory tree, which is not part of the model.) -/
def Config.save_config (c : Config) (fs : FS) (for_proejct : Bool) :
    Except ConfigError (Config × FS) :=
  match notForProjectKeysE c.dirty with
  | .error e => .error e
  | .ok not_for_project_keys =>
    if !not_for_project_keys.isEmpty && for_proejct then
      .error (.valueError ("Config item " ++ String.intercalate "," not_for_project_keys
        ++ " can not be saved in project config."))
    else
      let data := aupdate (if for_proejct then c.project_config else c.home_config) c.dirty
      match unflatten data with
      | none => .error .typeError
      | some toml_data =>
        let file_path := if for_proejct then c.project_config_file else c.home_config_file
        .ok ({ c with
                 project_config := if for_proejct then data else c.project_config
                 home_config := if for_proejct then c.home_config else data
                 dirty := [] },
             upsert fs file_path toml_data)

/-- `Config.__getitem__`: read from the merged view, `NoConfigError` when
the key is absent. -/
def Config.getItem (c : Config) (key : String) : Except ConfigError Value :=
  match alookup c.data key with
  | some v => .ok v
  | none => .error (.noConfigError key)

/-- `Config.__setitem__`: reject keys absent from the registry, coerce the
strings "true"/"false" (case-insensitively) to booleans, then store into
both `dirty` and `data`.  The rejection happens before any mutation. -/
def Config.setItem (c : Config) (key : String) (value : Value) :
    Except ConfigError Config :=
  if (alookup CONFIG_ITEMS key).isNone then
    .error (.noConfigError key)
  else
    let value :=
      match value with
      | Value.vStr s =>
        if strLower s = "false" then Value.vBool false
        else if strLower s = "true" then Value.vBool true
        else Value.vStr s
      | Value.vBool b => Value.vBool b
      | Value.vInt n => Value.vInt n
    .ok { c with dirty := upsert c.dirty key value, data := upsert c.data key value }

/-- `Config.__delitem__`: always raises `NotImplementedError`, touching
nothing. -/
def Config.delItem (_ : Config) (_ : String) : Except ConfigError Config :=
  .error .notImplementedError

/-! ### Association-list lemmas -/

section AssocLemmas

variable {α β : Type} [DecidableEq α]

theorem alookup_eq_none_of_not_mem (m : List (α × β)) (k : α)
    (h : k ∉ keysOf m) : alookup m k = none := by
  induction m with
  | nil => rfl
  | cons p t ih =>
    simp only [keysOf, List.map_cons, List.mem_cons, not_or] at h
    simp only [alookup, h.1, if_neg (Ne.symm h.1)]
    exact ih (by simpa [keysOf] using h.2)

theorem alookup_append (m l : List (α × β)) (k : α) :
    alookup (m ++ l) k
      = (alookup m k).orElse (fun _ => alookup l k) := by
  induction m with
  | nil => simp [alookup, Option.orElse]
  | cons p t ih =>
    cases p with | mk a b =>
    by_cases ha : a = k <;> simp [alookup, ha, ih, Option.orElse]

theorem not_mem_of_any_eq_false (m : List (α × β)) (k : α)
    (h : m.any (fun p => p.1 = k) = false) : k ∉ keysOf m := by
  intro hmem
  rcases List.mem_map.mp hmem with ⟨p, hp, hfst⟩
  have := List.any_eq_false.mp h p hp
  simp [hfst] at this

theorem alookup_upsert (m : List (α × β)) (k : α) (v : β) (k' : α) :
    alookup (upsert m k v) k' = if k' = k then some v else alookup m k' := by
  induction m with
  | nil =>
    by_cases hk : k' = k
    · subst hk; simp [upsert, alookup]
    · have hk' : ¬ k = k' := fun h => hk h.symm
      simp [upsert, alookup, hk, hk']
  | cons p t ih =>
    cases p with | mk a b =>
    by_cases ha : a = k
    · subst ha
      by_cases hk : k' = a
      · subst hk; simp [upsert, alookup]
      · have hk' : ¬ a = k' := fun h => hk h.symm
        simp [upsert, alookup, hk, hk']
    · by_cases hk : a = k'
      · subst hk; simp [upsert, alookup, ha]
      · simp [upsert, alookup, ha, hk, ih]


theorem aupdate_cons (m : List (α × β)) (a : α) (b : β) (t : List (α × β)) :
    aupdate m ((a, b) :: t) = aupdate (upsert m a b) t := rfl

theorem alookup_aupdate (m o : List (α × β)) (k : α) (ho : (keysOf o).Nodup) :
    alookup (aupdate m o) k = (alookup o k).orElse (fun _ => alookup m k) := by
  induction o generalizing m with
  | nil => simp [aupdate, alookup, Option.orElse]
  | cons p t ih =>
    cases p with | mk a b =>
    have hcons : a ∉ keysOf t ∧ (keysOf t).Nodup :=
      List.nodup_cons.mp (show ((a : α) :: keysOf t).Nodup from ho)
    rw [aupdate_cons, ih _ hcons.2]
    by_cases hk : k = a
    · subst hk
      rw [alookup_eq_none_of_not_mem t k hcons.1, alookup_upsert]
      simp [alookup, Option.orElse]
    · have hk' : ¬ a = k := fun h => hk h.symm
      rw [alookup_upsert]
      simp [alookup, hk, hk', Option.orElse]

theorem keysOf_upsert (m : List (α × β)) (k : α) (v : β) :
    keysOf (upsert m k v) = if k ∈ keysOf m then keysOf m else keysOf m ++ [k] := by
  induction m with
  | nil => simp [upsert, keysOf]
  | cons p t ih =>
    cases p with | mk a b =>
    have hk : keysOf ((a, b) :: t) = a :: keysOf t := rfl
    by_cases ha : a = k
    · subst ha
      rw [show upsert ((a, b) :: t) a v = (a, v) :: t from by simp [upsert]]
      rw [hk, if_pos (List.mem_cons_self a (keysOf t))]
      rfl
    · have ha' : ¬ k = a := fun h => ha h.symm
      rw [show upsert ((a, b) :: t) k v = (a, b) :: upsert t k v from by simp [upsert, ha]]
      have hcons : keysOf ((a, b) :: upsert t k v) = a :: keysOf (upsert t k v) := rfl
      rw [hcons, ih, hk]
      by_cases hmem : k ∈ keysOf t
      · rw [if_pos hmem, if_pos (List.mem_cons_of_mem a hmem)]
      · rw [if_neg hmem, if_neg (by simp [ha', hmem])]
        rfl

theorem keysOf_upsert_nodup (m : List (α × β)) (k : α) (v : β)
    (h : (keysOf m).Nodup) : (keysOf (upsert m k v)).Nodup := by
  rw [keysOf_upsert]
  by_cases hmem : k ∈ keysOf m
  · simpa [hmem]
  · rw [if_neg hmem]
    simp [List.nodup_append, h, hmem, List.disjoint_singleton]

theorem keysOf_aupdate_nodup (o m : List (α × β)) (h : (keysOf m).Nodup) :
    (keysOf (aupdate m o)).Nodup := by
  induction o generalizing m with
  | nil => exact h
  | cons p t ih =>
    cases p with | mk a b =>
    rw [aupdate_cons]
    exact ih _ (keysOf_upsert_nodup m a b h)

end AssocLemmas

theorem get_item_keys_nodup : ∀ (acc : FlatMap) (es : Entries),
    (keysOf acc).Nodup → (keysOf (get_item acc es)).Nodup := by
  intro acc es
  induction acc, es using get_item.induct with
  | case1 acc => intro h; rw [get_item]; exact h
  | case2 acc k v rest ih =>
    intro h
    rw [get_item]
    exact ih (keysOf_upsert_nodup acc k v h)
  | case3 acc k sub rest ih1 ih2 =>
    intro h
    rw [get_item]
    exact ih2 (keysOf_aupdate_nodup _ acc h)

theorem load_config_keys_nodup (fs : FS) (p : PathSegs) :
    (keysOf (load_config fs p)).Nodup := by
  rw [load_config]
  cases alookup fs p with
  | none => simp [keysOf]
  | some doc => exact get_item_keys_nodup [] doc (by simp [keysOf])

/-- **C1**: after construction, the merged view `data` is the compiled-in
defaults updated with the Home layer and then the Project layer, and for
every key the merged value is the Project value if present, else the Home
value if present, else the Default value. -/
theorem config_init_merge_precedence (home : PathSegs) (user_cache_dir : String)
    (pypi_source : FlatMap) (project_root : PathSegs) (fs : FS) :
    (Config.init home user_cache_dir pypi_source project_root fs).data
      = aupdate (aupdate (DEFAULT_CONFIG user_cache_dir pypi_source)
          (Config.init home user_cache_dir pypi_source project_root fs).home_config)
          (Config.init home user_cache_dir pypi_source project_root fs).project_config
    ∧ ∀ key : String,
        alookup (Config.init home user_cache_dir pypi_source project_root fs).data key
          = (alookup (Config.init home user_cache_dir pypi_source project_root fs).project_config key).orElse
              (fun _ =>
                (alookup (Config.init home user_cache_dir pypi_source project_root fs).home_config key).orElse
                  (fun _ => alookup (DEFAULT_CONFIG user_cache_dir pypi_source) key)) := by
  constructor
  · rfl
  · intro key
    have hp := load_config_keys_nodup fs (project_root ++ [".pdm.toml"])
    have hh := load_config_keys_nodup fs (HOME_CONFIG home ++ ["config.toml"])
    show alookup
        (aupdate (aupdate (DEFAULT_CONFIG user_cache_dir pypi_source)
          (load_config fs (HOME_CONFIG home ++ ["config.toml"])))
          (load_config fs (project_root ++ [".pdm.toml"]))) key = _
    rw [alookup_aupdate _ _ _ hp]
    simp only [alookup_aupdate _ _ _ hh]
    rfl

/-- A concrete store state used by the witness theorems: constructed over an
empty file system, so both layers are empty and `data` is the defaults. -/
def sampleConfig : Config :=
  Config.init ["HOME"] "/cache"
    [("pypi.url", Value.vStr "https://pypi.org/simple"),
     ("pypi.verify_ssl", Value.vBool true)]
    ["proj"] []

/-- `sampleConfig` with the project-restricted key `cache_dir` pending. -/
def restrictedDirtyConfig : Config :=
  { sampleConfig with dirty := [("cache_dir", Value.vStr "/tmp/x")] }

/-- `sampleConfig` with an unrestricted key pending. -/
def cleanDirtyConfig : Config :=
  { sampleConfig with dirty := [("python.path", Value.vStr "/usr/bin/python3")] }

/-- **C3** (code bug): the module intends the Home layer to live at the fixed
file `HOME_CONFIG = ~/.pdm/config.toml`, but `__init__` appends a second
`config.toml` segment (`self.HOME_CONFIG / "config.toml"`), so the store
actually reads and writes `~/.pdm/config.toml/config.toml`. -/
theorem home_config_file_path_bug :
    (Config.init ["HOME"] "/cache" [] ["proj"] []).home_config_file
      = ["HOME", ".pdm", "config.toml", "config.toml"]
    ∧ (Config.init ["HOME"] "/cache" [] ["proj"] []).home_config_file
      ≠ HOME_CONFIG ["HOME"] := by
  exact ⟨rfl, by decide⟩

/-- **C5**: `get` returns the stored merged value exactly when the key is in
`data` and fails with `NoConfigError key` exactly when it is absent; `set`
fails with `NoConfigError key` exactly when the key is absent from the
registry.  A failing `get`/`set` returns only the error, so no store state
is produced or changed by it. -/
theorem get_set_unknown_key :
    (∀ (c : Config) (key : String) (v : Value),
        c.getItem key = .ok v ↔ alookup c.data key = some v)
    ∧ (∀ (c : Config) (key : String),
        c.getItem key = .error (.noConfigError key) ↔ alookup c.data key = none)
    ∧ (∀ (c : Config) (key : String) (value : Value),
        c.setItem key value = .error (.noConfigError key)
          ↔ alookup CONFIG_ITEMS key = none) := by
  refine ⟨fun c key v => ?_, fun c key => ?_, fun c key value => ?_⟩
  · rw [Config.getItem]
    cases h : alookup c.data key <;> simp
  · rw [Config.getItem]
    cases h : alookup c.data key <;> simp
  · constructor
    · intro h
      cases hk : alookup CONFIG_ITEMS key with
      | none => rfl
      | some item =>
        rw [Config.setItem.eq_def, hk] at h
        simp at h
    · intro h
      rw [Config.setItem.eq_def, h]
      rfl

/-- **C6**: `set` on a registry key coerces a string that lower-cases to
`"true"`/`"false"` to the corresponding boolean and stores it into both
`dirty` and `data`; every other string and every non-string value is stored
unchanged into both. -/
theorem set_bool_coercion (c : Config) (key : String)
    (h : (alookup CONFIG_ITEMS key).isSome = true) :
    (∀ s : String, strLower s = "true" →
        c.setItem key (.vStr s)
          = .ok { c with dirty := upsert c.dirty key (.vBool true),
                         data := upsert c.data key (.vBool true) })
    ∧ (∀ s : String, strLower s = "false" →
        c.setItem key (.vStr s)
          = .ok { c with dirty := upsert c.dirty key (.vBool false),
                         data := upsert c.data key (.vBool false) })
    ∧ (∀ s : String, strLower s ≠ "true" → strLower s ≠ "false" →
        c.setItem key (.vStr s)
          = .ok { c with dirty := upsert c.dirty key (.vStr s),
                         data := upsert c.data key (.vStr s) })
    ∧ (∀ b : Bool,
        c.setItem key (.vBool b)
          = .ok { c with dirty := upsert c.dirty key (.vBool b),
                         data := upsert c.data key (.vBool b) })
    ∧ (∀ n : Int,
        c.setItem key (.vInt n)
          = .ok { c with dirty := upsert c.dirty key (.vInt n),
                         data := upsert c.data key (.vInt n) }) := by
  obtain ⟨item, hitem⟩ := Option.isSome_iff_exists.mp h
  refine ⟨fun s hs => ?_, fun s hs => ?_, fun s hs1 hs2 => ?_, fun b => ?_, fun n => ?_⟩ <;>
    rw [Config.setItem.eq_def, hitem]
  · simp [hs]
  · simp [hs]
  · simp [hs1, hs2]
  · rfl
  · rfl

theorem set_bool_coercion_witness :
    (alookup CONFIG_ITEMS "python.use_pyenv").isSome = true
    ∧ sampleConfig.setItem "python.use_pyenv" (.vStr "True")
        = .ok { sampleConfig with
                  dirty := upsert sampleConfig.dirty "python.use_pyenv" (.vBool true),
                  data := upsert sampleConfig.data "python.use_pyenv" (.vBool true) }
    ∧ sampleConfig.setItem "python.use_pyenv" (.vStr "no")
        = .ok { sampleConfig with
                  dirty := upsert sampleConfig.dirty "python.use_pyenv" (.vStr "no"),
                  data := upsert sampleConfig.data "python.use_pyenv" (.vStr "no") } := by
  refine ⟨by decide, ?_, ?_⟩
  · exact (set_bool_coercion sampleConfig "python.use_pyenv" (by decide)).1 "True" (by decide)
  · exact (set_bool_coercion sampleConfig "python.use_pyenv"
      (by decide)).2.2.1 "no" (by decide) (by decide)

/-- **C7**: loading a path that is not a file yields the empty flat mapping,
and a store constructed when neither configuration file exists has `data`
equal to exactly the compiled-in defaults. -/
theorem load_missing_file_defaults
    (fs : FS) (file_path : PathSegs)
    (home : PathSegs) (user_cache_dir : String) (pypi_source : FlatMap)
    (project_root : PathSegs) (fs' : FS)
    (hmiss : alookup fs file_path = none)
    (hproj : alookup fs' (project_root ++ [".pdm.toml"]) = none)
    (hhome : alookup fs' (HOME_CONFIG home ++ ["config.toml"]) = none) :
    load_config fs file_path = []
    ∧ (Config.init home user_cache_dir pypi_source project_root fs').data
        = DEFAULT_CONFIG user_cache_dir pypi_source := by
  constructor
  · rw [load_config, hmiss]
  · show aupdate (aupdate (DEFAULT_CONFIG user_cache_dir pypi_source)
        (load_config fs' (HOME_CONFIG home ++ ["config.toml"])))
        (load_config fs' (project_root ++ [".pdm.toml"])) = _
    simp only [load_config, hproj, hhome]
    rfl

theorem load_missing_file_defaults_witness :
    alookup ([] : FS) ["nowhere"] = none
    ∧ load_config [] ["nowhere"] = []
    ∧ (Config.init ["HOME"] "/cache" [("pypi.url", Value.vStr "u")] ["proj"] []).data
        = DEFAULT_CONFIG "/cache" [("pypi.url", Value.vStr "u")] := by
  refine ⟨rfl, ?_, ?_⟩
  · exact (load_missing_file_defaults [] ["nowhere"] ["HOME"] "/cache" [] ["proj"] []
      rfl rfl rfl).1
  · exact (load_missing_file_defaults [] ["nowhere"] ["HOME"] "/cache"
      [("pypi.url", Value.vStr "u")] ["proj"] [] rfl rfl rfl).2

/-- **C8**: deleting any key always fails with `NotImplementedError` and
never produces a successor state, so the store is left unchanged. -/
theorem delitem_unsupported (c : Config) (key : String) :
    c.delItem key = .error .notImplementedError
    ∧ ∀ c' : Config, ¬ c.delItem key = .ok c' := by
  exact ⟨rfl, fun c' h => by simp [Config.delItem] at h⟩

/-- The registry predicate selecting project-restricted keys, as read off
`CONFIG_ITEMS[k][1]` (absent keys give `false`). -/
def isRestrictedKey (k : String) : Bool :=
  ((alookup CONFIG_ITEMS k).map (fun item => item.2)).getD false

theorem notForProjectKeysE_ok (m : FlatMap) (r : List String)
    (h : notForProjectKeysE m = .ok r) :
    r = (keysOf m).filter isRestrictedKey := by
  induction m generalizing r with
  | nil =>
    rw [notForProjectKeysE] at h
    simp only [Except.ok.injEq] at h
    simp [← h, keysOf]
  | cons p t ih =>
    cases p with | mk k v =>
    rw [notForProjectKeysE] at h
    cases hk : alookup CONFIG_ITEMS k with
    | none => rw [hk] at h; simp at h
    | some item =>
      rw [hk] at h
      cases ht : notForProjectKeysE t with
      | error e => rw [ht] at h; simp at h
      | ok tail =>
        rw [ht] at h
        simp only [Except.ok.injEq] at h
        have hkeys : keysOf ((k, v) :: t) = k :: keysOf t := rfl
        rw [← h, hkeys, List.filter_cons, ih tail ht]
        have hpred : isRestrictedKey k = item.2 := by
          rw [isRestrictedKey, hk]
          rfl
        rw [hpred, ← ih tail ht]

theorem notForProjectKeysE_total (m : FlatMap)
    (h : ∀ k ∈ keysOf m, (alookup CONFIG_ITEMS k).isSome = true) :
    ∃ r, notForProjectKeysE m = .ok r := by
  induction m with
  | nil => exact ⟨[], rfl⟩
  | cons p t ih =>
    cases p with | mk k v =>
    have hk := h k (List.mem_cons_self k (keysOf t))
    obtain ⟨item, hitem⟩ := Option.isSome_iff_exists.mp hk
    obtain ⟨tail, htail⟩ := ih (fun k' hk' => h k' (List.mem_cons_of_mem k hk'))
    refine ⟨if item.2 then k :: tail else tail, ?_⟩
    rw [notForProjectKeysE, hitem, htail]

/-- Elimination of a successful `save_config`: exposes the guard result, the
serialized document and the exact successor state. -/
theorem save_config_ok_elim (c : Config) (fs : FS) (fp : Bool) (c' : Config) (fs' : FS)
    (h : c.save_config fs fp = .ok (c', fs')) :
    ∃ (toml_data : Entries) (keys : List String),
      notForProjectKeysE c.dirty = .ok keys
      ∧ (!keys.isEmpty && fp) = false
      ∧ unflatten (aupdate (if fp then c.project_config else c.home_config) c.dirty)
          = some toml_data
      ∧ c' = { c with
                 project_config := if fp then
                     aupdate c.project_config c.dirty else c.project_config
                 home_config := if fp then c.home_config
                     else aupdate c.home_config c.dirty
                 dirty := [] }
      ∧ fs' = upsert fs (if fp then c.project_config_file else c.home_config_file)
          toml_data := by
  cases fp with
  | true =>
    rw [Config.save_config.eq_def] at h
    split at h
    · simp at h
    · rename_i keys hn
      split at h
      · simp at h
      · rename_i hg
        simp only [reduceIte] at h
        split at h
        · simp at h
        · rename_i toml_data hu
          simp only [Except.ok.injEq, Prod.mk.injEq] at h
          refine ⟨toml_data, keys, hn, Bool.eq_false_iff.mpr hg, ?_, ?_, ?_⟩
          · exact hu
          · exact h.1.symm
          · exact h.2.symm
  | false =>
    rw [Config.save_config.eq_def] at h
    split at h
    · simp at h
    · rename_i keys hn
      split at h
      · simp at h
      · rename_i hg
        simp only [reduceIte] at h
        split at h
        · simp at h
        · rename_i toml_data hu
          simp only [Except.ok.injEq, Prod.mk.injEq] at h
          refine ⟨toml_data, keys, hn, by simp, ?_, ?_, ?_⟩
          · exact hu
          · exact h.1.symm
          · exact h.2.symm

/-- **C4**: with a project-restricted key among the dirty keys,
`save_config True` fails with a `ValueError` naming exactly the restricted
dirty keys and produces no new state (so the project layer, the project
file and `dirty` are untouched), while `save_config False` with the same
dirty set succeeds, writes the home file and clears `dirty` (provided the
merged home mapping serializes, as it does for every real layer). -/
theorem save_restricted_guard (c : Config) (fs : FS) (restricted : List String)
    (toml_data : Entries)
    (hr : notForProjectKeysE c.dirty = .ok restricted)
    (hne : restricted ≠ [])
    (hu : unflatten (aupdate c.home_config c.dirty) = some toml_data) :
    restricted = (keysOf c.dirty).filter isRestrictedKey
    ∧ c.save_config fs true
      = .error (.valueError ("Config item " ++ String.intercalate "," restricted
          ++ " can not be saved in project config."))
    ∧ (∀ out, ¬ c.save_config fs true = .ok out)
    ∧ c.save_config fs false
      = .ok ({ c with home_config := aupdate c.home_config c.dirty, dirty := [] },
             upsert fs c.home_config_file toml_data) := by
  have hcond : restricted.isEmpty = false := by
    cases restricted with
    | nil => exact absurd rfl hne
    | cons a t => rfl
  have herr : c.save_config fs true
      = .error (.valueError ("Config item " ++ String.intercalate "," restricted
          ++ " can not be saved in project config.")) := by
    simp [Config.save_config.eq_def, hr, Bool.and_true, hcond, Bool.not_false]
  refine ⟨notForProjectKeysE_ok c.dirty restricted hr, herr, ?_, ?_⟩
  · intro out hok
    rw [herr] at hok
    simp at hok
  · simp [Config.save_config.eq_def, hr, hu]

theorem save_restricted_guard_witness :
    notForProjectKeysE restrictedDirtyConfig.dirty = .ok ["cache_dir"]
    ∧ (["cache_dir"] : List String) ≠ []
    ∧ unflatten (aupdate restrictedDirtyConfig.home_config restrictedDirtyConfig.dirty)
        = some [("cache_dir", Doc.scalar (Value.vStr "/tmp/x"))]
    ∧ (["cache_dir"] : List String)
        = (keysOf restrictedDirtyConfig.dirty).filter isRestrictedKey
    ∧ restrictedDirtyConfig.save_config [] true
      = .error (.valueError ("Config item " ++ String.intercalate "," ["cache_dir"]
          ++ " can not be saved in project config."))
    ∧ (∀ out, ¬ restrictedDirtyConfig.save_config [] true = .ok out)
    ∧ restrictedDirtyConfig.save_config [] false
      = .ok ({ restrictedDirtyConfig with
                 home_config := aupdate restrictedDirtyConfig.home_config
                   restrictedDirtyConfig.dirty,
                 dirty := [] },
             upsert [] restrictedDirtyConfig.home_config_file
               [("cache_dir", Doc.scalar (Value.vStr "/tmp/x"))]) := by
  have h := save_restricted_guard restrictedDirtyConfig [] ["cache_dir"]
    [("cache_dir", Doc.scalar (Value.vStr "/tmp/x"))] rfl (by decide) rfl
  exact ⟨rfl, by decide, rfl, h.1, h.2.1, h.2.2.1, h.2.2.2⟩

theorem mem_keysOf_upsert {α β : Type} [DecidableEq α] (m : List (α × β))
    (k k' : α) (v : β) (h : k' ∈ keysOf (upsert m k v)) :
    k' ∈ keysOf m ∨ k' = k := by
  rw [keysOf_upsert] at h
  by_cases hmem : k ∈ keysOf m
  · rw [if_pos hmem] at h
    exact Or.inl h
  · rw [if_neg hmem] at h
    rcases List.mem_append.mp h with h | h
    · exact Or.inl h
    · exact Or.inr (List.mem_singleton.mp h)

/-- **C10**: a successful `save_config` merges `dirty` into only the target
layer mapping, writes only the target file and clears `dirty`; the merged
view `data`, the project root, both stored file paths, the other layer
mapping and every other file of the file system are unchanged. -/
theorem save_config_frame (c : Config) (fs : FS) (for_proejct : Bool)
    (c' : Config) (fs' : FS)
    (h : c.save_config fs for_proejct = .ok (c', fs')) :
    ∃ toml_data : Entries,
      unflatten (aupdate (if for_proejct then c.project_config else c.home_config) c.dirty)
        = some toml_data
      ∧ c'.data = c.data
      ∧ c'.dirty = []
      ∧ c'.project_root = c.project_root
      ∧ c'.project_config_file = c.project_config_file
      ∧ c'.home_config_file = c.home_config_file
      ∧ c'.project_config
          = (if for_proejct then aupdate c.project_config c.dirty else c.project_config)
      ∧ c'.home_config
          = (if for_proejct then c.home_config else aupdate c.home_config c.dirty)
      ∧ fs' = upsert fs (if for_proejct then c.project_config_file else c.home_config_file)
          toml_data
      ∧ (∀ p : PathSegs,
          p ≠ (if for_proejct then c.project_config_file else c.home_config_file) →
          alookup fs' p = alookup fs p) := by
  obtain ⟨toml_data, keys, hn, hg, hu, hc, hf⟩ :=
    save_config_ok_elim c fs for_proejct c' fs' h
  subst hc
  subst hf
  refine ⟨toml_data, hu, rfl, rfl, rfl, rfl, rfl, rfl, rfl, rfl, fun p hp => ?_⟩
  rw [alookup_upsert, if_neg hp]

/-- The state produced by a successful `save_config` on `cleanDirtyConfig`. -/
def cleanSavedConfig : Config :=
  { cleanDirtyConfig with
      project_config := [("python.path", Value.vStr "/usr/bin/python3")],
      dirty := [] }

/-- The file system produced by that save. -/
def cleanSavedFS : FS :=
  [(["proj", ".pdm.toml"],
    [("python", Doc.table [("path", Doc.scalar (Value.vStr "/usr/bin/python3"))])])]

theorem save_config_frame_witness :
    cleanDirtyConfig.save_config [] true = .ok (cleanSavedConfig, cleanSavedFS)
    ∧ ∃ toml_data : Entries,
        unflatten (aupdate (if true then cleanDirtyConfig.project_config
            else cleanDirtyConfig.home_config) cleanDirtyConfig.dirty)
          = some toml_data
        ∧ cleanSavedConfig.data = cleanDirtyConfig.data
        ∧ cleanSavedConfig.dirty = []
        ∧ cleanSavedConfig.project_root = cleanDirtyConfig.project_root
        ∧ cleanSavedConfig.project_config_file = cleanDirtyConfig.project_config_file
        ∧ cleanSavedConfig.home_config_file = cleanDirtyConfig.home_config_file
        ∧ cleanSavedConfig.project_config
            = (if true then aupdate cleanDirtyConfig.project_config cleanDirtyConfig.dirty
                else cleanDirtyConfig.project_config)
        ∧ cleanSavedConfig.home_config
            = (if true then cleanDirtyConfig.home_config
                else aupdate cleanDirtyConfig.home_config cleanDirtyConfig.dirty)
        ∧ cleanSavedFS = upsert [] (if true then cleanDirtyConfig.project_config_file
            else cleanDirtyConfig.home_config_file) toml_data
        ∧ (∀ p : PathSegs,
            p ≠ (if true then cleanDirtyConfig.project_config_file
                else cleanDirtyConfig.home_config_file) →
            alookup cleanSavedFS p = alookup ([] : FS) p) := by
  have h : cleanDirtyConfig.save_config [] true = .ok (cleanSavedConfig, cleanSavedFS) := rfl
  exact ⟨h, save_config_frame cleanDirtyConfig [] true cleanSavedConfig cleanSavedFS h⟩

/-- **C9**: every key of `dirty` is a registry key: construction starts with
an empty `dirty`, a successful `set` only inserts keys present in
`CONFIG_ITEMS` (a failed `set` produces no state), and `save_config` only
clears `dirty`; under this invariant the registry lookup
`CONFIG_ITEMS[k][1]` performed by `save_config` never raises `KeyError`. -/
theorem dirty_registry_invariant :
    (∀ (home : PathSegs) (user_cache_dir : String) (pypi_source : FlatMap)
        (project_root : PathSegs) (fs : FS),
      ∀ k ∈ keysOf (Config.init home user_cache_dir pypi_source project_root fs).dirty,
        (alookup CONFIG_ITEMS k).isSome = true)
    ∧ (∀ (c c' : Config) (key : String) (value : Value),
        (∀ k ∈ keysOf c.dirty, (alookup CONFIG_ITEMS k).isSome = true) →
        c.setItem key value = .ok c' →
        ∀ k ∈ keysOf c'.dirty, (alookup CONFIG_ITEMS k).isSome = true)
    ∧ (∀ (c c' : Config) (fs fs' : FS) (fp : Bool),
        c.save_config fs fp = .ok (c', fs') →
        ∀ k ∈ keysOf c'.dirty, (alookup CONFIG_ITEMS k).isSome = true)
    ∧ (∀ c : Config,
        (∀ k ∈ keysOf c.dirty, (alookup CONFIG_ITEMS k).isSome = true) →
        ∃ r, notForProjectKeysE c.dirty = .ok r) := by
  refine ⟨?_, ?_, ?_, ?_⟩
  · intro home ucd pp root fs k hk
    exact absurd hk (List.not_mem_nil k)
  · intro c c' key value hinv h k hk
    rw [Config.setItem.eq_def] at h
    by_cases hreg : (alookup CONFIG_ITEMS key).isNone = true
    · rw [if_pos hreg] at h
      simp at h
    · rw [if_neg hreg] at h
      simp only [Except.ok.injEq] at h
      have hd := congrArg Config.dirty h
      rw [← hd] at hk
      rcases mem_keysOf_upsert c.dirty key k _ hk with hmem | hkey
      · exact hinv k hmem
      · subst hkey
        cases ho : alookup CONFIG_ITEMS k with
        | none => rw [ho] at hreg; exact absurd rfl hreg
        | some item => rfl
  · intro c c' fs fs' fp h k hk
    obtain ⟨td, keys, hn, hg, hu, hc, hf⟩ := save_config_ok_elim c fs fp c' fs' h
    subst hc
    exact absurd hk (List.not_mem_nil k)
  · intro c hinv
    exact notForProjectKeysE_total c.dirty hinv

/-- The state produced by `sampleConfig.setItem "python.path" ...`. -/
def setSampleConfig : Config :=
  { sampleConfig with
      dirty := upsert sampleConfig.dirty "python.path" (Value.vStr "/usr/bin/python3"),
      data := upsert sampleConfig.data "python.path" (Value.vStr "/usr/bin/python3") }

theorem dirty_registry_invariant_witness :
    sampleConfig.setItem "python.path" (Value.vStr "/usr/bin/python3") = .ok setSampleConfig
    ∧ (∀ k ∈ keysOf setSampleConfig.dirty, (alookup CONFIG_ITEMS k).isSome = true)
    ∧ (∃ r, notForProjectKeysE restrictedDirtyConfig.dirty = .ok r) := by
  have hset : sampleConfig.setItem "python.path" (Value.vStr "/usr/bin/python3")
      = .ok setSampleConfig := rfl
  refine ⟨hset, ?_, ?_⟩
  · exact dirty_registry_invariant.2.1 sampleConfig setSampleConfig "python.path"
      (Value.vStr "/usr/bin/python3")
      (fun k hk => absurd hk (List.not_mem_nil k)) hset
  · refine dirty_registry_invariant.2.2.2 restrictedDirtyConfig (fun k hk => ?_)
    have hk' : k ∈ (["cache_dir"] : List String) := hk
    rw [List.mem_singleton.mp hk']
    rfl

/-! ### Round-trip of the document flattener (claim C2)

Proof-side notions: `nflat` is the naive (append-only) flattening, shown
equal to `get_item` on well-formed documents; `wfEntries` is the
well-formedness of a parsed document under which the round trip holds;
`insertAll` is the fold performed by `unflatten`, generalized to an
arbitrary starting document. -/

/-- Proof helper: naive flattening, the leaves in document order. -/
def nflat : Entries → FlatMap
  | [] => []
  | (k, Doc.scalar v) :: rest => (k, v) :: nflat rest
  | (k, Doc.table sub) :: rest =>
      (nflat sub).map (fun p => (joinDot k p.1, p.2)) ++ nflat rest

/-- The key contains no dot. -/
def dotFree (s : String) : Bool := decide ('.' ∉ s.data)

/-- Proof helper: well-formedness of a parsed document — at every level the
keys are dot-free and pairwise distinct, and every sub-table is nonempty. -/
def wfEntries : Entries → Bool
  | [] => true
  | (k, d) :: rest =>
      dotFree k
      && (match d with
          | Doc.scalar _ => true
          | Doc.table sub => decide (sub ≠ []) && wfEntries sub)
      && decide (k ∉ keysOf rest)
      && wfEntries rest

/-- Proof helper: `unflatten`, started from an arbitrary document. -/
def insertAll (acc : Entries) (m : FlatMap) : Option Entries :=
  m.foldlM (fun acc p => insertPath acc (splitDot p.1) p.2) acc

theorem unflatten_eq_insertAll (m : FlatMap) : unflatten m = insertAll [] m := rfl

/-- Modelled from the spec: a flat mapping uses a key path as both a branch
and a leaf exactly when one of its keys extended by a dot is a prefix of
another of its keys. -/
def branchLeafClash (m : FlatMap) : Bool :=
  (keysOf m).any (fun k1 => (keysOf m).any (fun k2 =>
    (k1.data ++ ['.']).isPrefixOf k2.data))

/-! #### String-level lemmas -/

theorem splitOnChar_ne_nil (c : Char) : ∀ l : List Char, splitOnChar c l ≠ []
  | [] => by simp [splitOnChar]
  | x :: xs => by
    rw [splitOnChar]
    by_cases hx : x = c
    · simp [hx]
    · rw [if_neg hx]
      cases h : splitOnChar c xs <;> simp

theorem splitOnChar_not_mem (c : Char) (l : List Char) (h : c ∉ l) :
    splitOnChar c l = [l] := by
  induction l with
  | nil => rfl
  | cons x xs ih =>
    rw [splitOnChar]
    have hx : ¬ x = c := fun hxc => h (hxc ▸ List.mem_cons_self x xs)
    rw [if_neg hx, ih (fun hm => h (List.mem_cons_of_mem x hm))]

theorem splitOnChar_append (c : Char) (xs ys : List Char) (h : c ∉ xs) :
    splitOnChar c (xs ++ c :: ys) = xs :: splitOnChar c ys := by
  induction xs with
  | nil => simp [splitOnChar]
  | cons x t ih =>
    have hx : ¬ x = c := fun hxc => h (hxc ▸ List.mem_cons_self x t)
    rw [List.cons_append, splitOnChar, if_neg hx,
      ih (fun hm => h (List.mem_cons_of_mem x hm))]

theorem append_sep_inj {α : Type} (c : α) :
    ∀ (as as' bs bs' : List α), c ∉ as → c ∉ as' →
      as ++ c :: bs = as' ++ c :: bs' → as = as' ∧ bs = bs'
  | [], [], bs, bs', _, _, h => by simpa using h
  | [], a' :: t', bs, bs', _, ha', h => by
    simp only [List.nil_append, List.cons_append, List.cons.injEq] at h
    exact absurd (h.1 ▸ List.mem_cons_self a' t') ha'
  | a :: t, [], bs, bs', ha, _, h => by
    simp only [List.cons_append, List.nil_append, List.cons.injEq] at h
    exact absurd (h.1.symm ▸ List.mem_cons_self a t) ha
  | a :: t, a' :: t', bs, bs', ha, ha', h => by
    simp only [List.cons_append, List.cons.injEq] at h
    obtain ⟨h1, h2⟩ := append_sep_inj c t t' bs bs'
      (fun hm => ha (List.mem_cons_of_mem a hm))
      (fun hm => ha' (List.mem_cons_of_mem a' hm)) h.2
    exact ⟨by rw [h.1, h1], h2⟩

theorem data_joinDot (a b : String) : (joinDot a b).data = a.data ++ '.' :: b.data := by
  rw [joinDot, String.data_append, String.data_append,
    show (".".data : List Char) = ['.'] from by decide]
  simp

theorem dotFree_iff (s : String) : dotFree s = true ↔ '.' ∉ s.data := by
  rw [dotFree, decide_eq_true_eq]

theorem dot_mem_joinDot (a b : String) : '.' ∈ (joinDot a b).data := by
  rw [data_joinDot]
  exact List.mem_append.mpr (Or.inr (List.mem_cons_self '.' b.data))

theorem joinDot_ne_dotFree (a b c : String) (hc : dotFree c = true) :
    joinDot a b ≠ c := by
  intro h
  exact (dotFree_iff c).mp hc (h ▸ dot_mem_joinDot a b)

theorem joinDot_inj (a a' b b' : String)
    (ha : dotFree a = true) (ha' : dotFree a' = true)
    (h : joinDot a b = joinDot a' b') : a = a' ∧ b = b' := by
  have hd := congrArg String.data h
  rw [data_joinDot, data_joinDot] at hd
  obtain ⟨h1, h2⟩ := append_sep_inj '.' a.data a'.data b.data b'.data
    ((dotFree_iff a).mp ha) ((dotFree_iff a').mp ha') hd
  exact ⟨String.ext h1, String.ext h2⟩

theorem joinDot_right_inj (a b b' : String) (h : joinDot a b = joinDot a b') :
    b = b' := by
  have hd := congrArg String.data h
  rw [data_joinDot, data_joinDot] at hd
  exact String.ext (List.cons.inj (List.append_cancel_left hd)).2

theorem splitDot_ne_nil (s : String) : splitDot s ≠ [] := by
  rw [splitDot]
  intro h
  exact splitOnChar_ne_nil '.' s.data (List.map_eq_nil_iff.mp h)

theorem splitDot_dotFree (s : String) (h : dotFree s = true) : splitDot s = [s] := by
  rw [splitDot, splitOnChar_not_mem '.' s.data ((dotFree_iff s).mp h)]
  rfl

theorem splitDot_joinDot (a b : String) (ha : dotFree a = true) :
    splitDot (joinDot a b) = a :: splitDot b := by
  rw [splitDot, data_joinDot, splitOnChar_append '.' a.data b.data ((dotFree_iff a).mp ha)]
  rfl

/-! #### Facts about `nflat` on well-formed documents -/

theorem wfEntries_cons_scalar (k : String) (v : Value) (rest : Entries)
    (h : wfEntries ((k, Doc.scalar v) :: rest) = true) :
    dotFree k = true ∧ k ∉ keysOf rest ∧ wfEntries rest = true := by
  rw [wfEntries] at h
  simp only [Bool.and_eq_true, decide_eq_true_eq] at h
  exact ⟨h.1.1.1, h.1.2, h.2⟩

theorem wfEntries_cons_table (k : String) (sub rest : Entries)
    (h : wfEntries ((k, Doc.table sub) :: rest) = true) :
    dotFree k = true ∧ sub ≠ [] ∧ wfEntries sub = true
      ∧ k ∉ keysOf rest ∧ wfEntries rest = true := by
  rw [wfEntries] at h
  simp only [Bool.and_eq_true, decide_eq_true_eq] at h
  exact ⟨h.1.1.1, h.1.1.2.1, h.1.1.2.2, h.1.2, h.2⟩

theorem wfEntries_keys_dotFree : ∀ es : Entries, wfEntries es = true →
    ∀ k ∈ keysOf es, dotFree k = true := by
  intro es
  induction es with
  | nil => intro _ k hk; exact absurd hk (List.not_mem_nil k)
  | cons p rest ih =>
    intro hwf k hk
    cases p with | mk k' d =>
    have hk'' : k ∈ (k' :: keysOf rest) := hk
    cases d with
    | scalar v =>
      obtain ⟨hdf, _, hwr⟩ := wfEntries_cons_scalar k' v rest hwf
      rcases List.mem_cons.mp hk'' with rfl | hmem
      · exact hdf
      · exact ih hwr k hmem
    | table sub =>
      obtain ⟨hdf, _, _, _, hwr⟩ := wfEntries_cons_table k' sub rest hwf
      rcases List.mem_cons.mp hk'' with rfl | hmem
      · exact hdf
      · exact ih hwr k hmem

theorem keysOf_nflat_scalar_cons (k : String) (v : Value) (rest : Entries) :
    keysOf (nflat ((k, Doc.scalar v) :: rest)) = k :: keysOf (nflat rest) := by
  rw [nflat]
  rfl

theorem keysOf_nflat_table_cons (k : String) (sub rest : Entries) :
    keysOf (nflat ((k, Doc.table sub) :: rest))
      = (keysOf (nflat sub)).map (joinDot k) ++ keysOf (nflat rest) := by
  rw [nflat]
  simp [keysOf, List.map_map]

theorem nflat_ne_nil : ∀ es : Entries, wfEntries es = true → es ≠ [] → nflat es ≠ [] := by
  intro es
  induction es using nflat.induct with
  | case1 => intro _ h; exact absurd rfl h
  | case2 k v rest ih =>
    intro _ _
    rw [nflat]
    simp
  | case3 k sub rest ih1 ih2 =>
    intro hwf _
    obtain ⟨_, hsub_ne, hsub_wf, _, _⟩ := wfEntries_cons_table k sub rest hwf
    rw [nflat]
    intro h
    exact ih1 hsub_wf hsub_ne (List.map_eq_nil_iff.mp (List.append_eq_nil.mp h).1)

theorem nflat_keys_shape : ∀ es : Entries, ∀ key ∈ keysOf (nflat es),
    ∃ k', k' ∈ keysOf es ∧ (key = k' ∨ ∃ s, key = joinDot k' s) := by
  intro es
  induction es using nflat.induct with
  | case1 =>
    intro key hk
    rw [nflat] at hk
    exact absurd hk (List.not_mem_nil key)
  | case2 k v rest ih =>
    intro key hk
    rw [keysOf_nflat_scalar_cons] at hk
    rcases List.mem_cons.mp hk with rfl | hmem
    · exact ⟨key, List.mem_cons_self key (keysOf rest), Or.inl rfl⟩
    · obtain ⟨k', h1, h2⟩ := ih key hmem
      exact ⟨k', List.mem_cons_of_mem k h1, h2⟩
  | case3 k sub rest ih1 ih2 =>
    intro key hk
    rw [keysOf_nflat_table_cons] at hk
    rcases List.mem_append.mp hk with hmem | hmem
    · obtain ⟨s, _, hs⟩ := List.mem_map.mp hmem
      exact ⟨k, List.mem_cons_self k (keysOf rest), Or.inr ⟨s, hs.symm⟩⟩
    · obtain ⟨k', h1, h2⟩ := ih2 key hmem
      exact ⟨k', List.mem_cons_of_mem k h1, h2⟩

theorem nflat_keys_nodup : ∀ es : Entries, wfEntries es = true →
    (keysOf (nflat es)).Nodup := by
  intro es
  induction es using nflat.induct with
  | case1 =>
    intro _
    rw [nflat]
    exact List.nodup_nil
  | case2 k v rest ih =>
    intro hwf
    obtain ⟨hdf, hnm, hwr⟩ := wfEntries_cons_scalar k v rest hwf
    rw [keysOf_nflat_scalar_cons]
    refine List.nodup_cons.mpr ⟨?_, ih hwr⟩
    intro hmem
    obtain ⟨k', hk'mem, hk'eq⟩ := nflat_keys_shape rest k hmem
    rcases hk'eq with rfl | ⟨s, hs⟩
    · exact hnm hk'mem
    · exact joinDot_ne_dotFree k' s k hdf hs.symm
  | case3 k sub rest ih1 ih2 =>
    intro hwf
    obtain ⟨hdf, hne, hwsub, hnm, hwr⟩ := wfEntries_cons_table k sub rest hwf
    rw [keysOf_nflat_table_cons]
    refine List.Nodup.append ?_ (ih2 hwr) ?_
    · exact List.Nodup.map (fun b b' h => joinDot_right_inj k b b' h) (ih1 hwsub)
    · intro a ha hb
      obtain ⟨s, _, hs⟩ := List.mem_map.mp ha
      obtain ⟨k', hk'mem, hk'eq⟩ := nflat_keys_shape rest a hb
      have hdf' : dotFree k' = true :=
        wfEntries_keys_dotFree rest hwr k' hk'mem
      rcases hk'eq with rfl | ⟨s', hs'⟩
      · exact joinDot_ne_dotFree k s a hdf' hs
      · rw [← hs] at hs'
        exact hnm ((joinDot_inj k k' s s' hdf hdf' hs').1 ▸ hk'mem)

/-! #### `get_item` coincides with `nflat` on well-formed documents -/

theorem upsert_not_mem {α β : Type} [DecidableEq α] (m : List (α × β)) (k : α) (v : β)
    (h : k ∉ keysOf m) : upsert m k v = m ++ [(k, v)] := by
  induction m with
  | nil => rfl
  | cons p t ih =>
    cases p with | mk a b =>
    have ha : ¬ a = k := by
      intro hak
      apply h
      rw [← hak]
      exact List.mem_cons_self a (keysOf t)
    rw [upsert, if_neg ha, ih (fun hm => h (List.mem_cons_of_mem a hm)), List.cons_append]

theorem aupdate_of_fresh {α β : Type} [DecidableEq α] :
    ∀ (o m : List (α × β)), (keysOf o).Nodup →
      (∀ key ∈ keysOf o, key ∉ keysOf m) → aupdate m o = m ++ o
  | [], m, _, _ => by simp [aupdate]
  | (a, b) :: t, m, hnd, hdisj => by
    rw [aupdate_cons, upsert_not_mem m a b (hdisj a (List.mem_cons_self a (keysOf t)))]
    have hnd' : (keysOf t).Nodup := (List.nodup_cons.mp hnd).2
    have hna : a ∉ keysOf t := (List.nodup_cons.mp hnd).1
    rw [aupdate_of_fresh t (m ++ [(a, b)]) hnd' ?_]
    · simp
    · intro key hk
      rw [keysOf, List.map_append]
      simp only [List.mem_append, not_or]
      refine ⟨hdisj key (List.mem_cons_of_mem a hk), ?_⟩
      simp only [List.map_cons, List.map_nil, List.mem_singleton]
      intro hka
      exact hna (hka ▸ hk)

theorem nflat_keys_ne_fresh (rest : Entries) (k : String)
    (hdf : dotFree k = true) (hnm : k ∉ keysOf rest) :
    ∀ key ∈ keysOf (nflat rest), key ≠ k := by
  intro key hk
  obtain ⟨k', hk'mem, hk'eq⟩ := nflat_keys_shape rest key hk
  rcases hk'eq with rfl | ⟨s, hs⟩
  · exact fun h => hnm (h ▸ hk'mem)
  · rw [hs]
    exact joinDot_ne_dotFree k' s k hdf

theorem get_item_eq_nflat : ∀ (acc : FlatMap) (es : Entries),
    wfEntries es = true →
    (∀ key ∈ keysOf (nflat es), key ∉ keysOf acc) →
    get_item acc es = acc ++ nflat es := by
  intro acc es
  induction acc, es using get_item.induct with
  | case1 acc =>
    intro _ _
    rw [get_item, nflat]
    simp
  | case2 acc k v rest ih =>
    intro hwf hdisj
    obtain ⟨hdf, hnm, hwr⟩ := wfEntries_cons_scalar k v rest hwf
    have hkacc : k ∉ keysOf acc := by
      refine hdisj k ?_
      rw [keysOf_nflat_scalar_cons]
      exact List.mem_cons_self _ _
    rw [get_item, ih hwr ?_, upsert_not_mem acc k v hkacc, nflat]
    · simp
    · intro key hk
      rw [upsert_not_mem acc k v hkacc, keysOf, List.map_append]
      simp only [List.mem_append, not_or]
      constructor
      · refine hdisj key ?_
        rw [keysOf_nflat_scalar_cons]
        exact List.mem_cons_of_mem k hk
      · simp only [List.map_cons, List.map_nil, List.mem_singleton]
        exact nflat_keys_ne_fresh rest k hdf hnm key hk
  | case3 acc k sub rest ih1 ih2 =>
    intro hwf hdisj
    obtain ⟨hdf, hne, hwsub, hnm, hwr⟩ := wfEntries_cons_table k sub rest hwf
    have hsub_eq : get_item [] sub = nflat sub := by
      rw [ih1 hwsub (fun key _ => List.not_mem_nil key)]
      simp
    have hpre_keys : keysOf ((nflat sub).map (fun p => (joinDot k p.1, p.2)))
        = (keysOf (nflat sub)).map (joinDot k) := by
      simp [keysOf, List.map_map]
    have hnodup_all := nflat_keys_nodup _ hwf
    rw [keysOf_nflat_table_cons] at hnodup_all
    have hpre_nodup : ((keysOf (nflat sub)).map (joinDot k)).Nodup :=
      hnodup_all.of_append_left
    have hdisj_pre_acc : ∀ key ∈ (keysOf (nflat sub)).map (joinDot k),
        key ∉ keysOf acc := by
      intro key hk
      refine hdisj key ?_
      rw [keysOf_nflat_table_cons]
      exact List.mem_append.mpr (Or.inl hk)
    have hacc : aupdate acc ((get_item [] sub).map (fun p => (joinDot k p.1, p.2)))
        = acc ++ (nflat sub).map (fun p => (joinDot k p.1, p.2)) := by
      rw [hsub_eq]
      exact aupdate_of_fresh _ acc (by rw [hpre_keys]; exact hpre_nodup)
        (by rw [hpre_keys]; exact hdisj_pre_acc)
    rw [get_item, ih2 hwr ?_, hacc, nflat]
    · rw [List.append_assoc]
    · intro key hk
      rw [hacc, keysOf, List.map_append]
      simp only [List.mem_append, not_or]
      constructor
      · refine hdisj key ?_
        rw [keysOf_nflat_table_cons]
        exact List.mem_append.mpr (Or.inr hk)
      · intro hkpre
        have hkpre' : key ∈ (keysOf (nflat sub)).map (joinDot k) := by
          rw [← hpre_keys]
          exact hkpre
        exact List.disjoint_of_nodup_append hnodup_all hkpre' hk

/-! #### `unflatten` rebuilds a well-formed document from `nflat` -/

theorem upsert_append_fresh {α β : Type} [DecidableEq α] (acc : List (α × β)) (k : α)
    (h : k ∉ keysOf acc) (d d' : β) :
    upsert (acc ++ [(k, d)]) k d' = acc ++ [(k, d')] := by
  induction acc with
  | nil => simp [upsert]
  | cons p t ih =>
    cases p with | mk a b =>
    have ha : ¬ a = k := by
      intro hak
      apply h
      rw [← hak]
      exact List.mem_cons_self a (keysOf t)
    rw [List.cons_append, upsert, if_neg ha,
      ih (fun hm => h (List.mem_cons_of_mem a hm)), List.cons_append]

theorem alookup_append_fresh {α β : Type} [DecidableEq α] (acc : List (α × β)) (k : α)
    (h : k ∉ keysOf acc) (d : β) :
    alookup (acc ++ [(k, d)]) k = some d := by
  rw [alookup_append, alookup_eq_none_of_not_mem acc k h]
  simp [alookup, Option.orElse]

theorem insertAll_nil (acc : Entries) : insertAll acc [] = some acc := rfl

theorem insertAll_cons (acc : Entries) (key : String) (v : Value) (tl : FlatMap) :
    insertAll acc ((key, v) :: tl)
      = (insertPath acc (splitDot key) v).bind (fun acc' => insertAll acc' tl) := rfl

theorem insertAll_append (l₁ l₂ : FlatMap) : ∀ acc : Entries,
    insertAll acc (l₁ ++ l₂) = (insertAll acc l₁).bind (fun a => insertAll a l₂) := by
  induction l₁ with
  | nil => intro acc; rfl
  | cons p t ih =>
    intro acc
    cases p with | mk key v =>
    rw [List.cons_append, insertAll_cons, insertAll_cons]
    cases insertPath acc (splitDot key) v with
    | none => rfl
    | some a => exact ih a

theorem insertAll_prefix (k : String) (hdf : dotFree k = true) :
    ∀ (flats : FlatMap) (t acc : Entries), k ∉ keysOf acc →
      insertAll (acc ++ [(k, Doc.table t)]) (flats.map (fun p => (joinDot k p.1, p.2)))
        = (insertAll t flats).map (fun t' => acc ++ [(k, Doc.table t')]) := by
  intro flats
  induction flats with
  | nil => intro t acc _; rfl
  | cons p tl ih =>
    intro t acc hacc
    cases p with | mk k₁ v =>
    obtain ⟨q, qs, hsplit⟩ : ∃ q qs, splitDot k₁ = q :: qs := by
      cases h : splitDot k₁ with
      | nil => exact absurd h (splitDot_ne_nil k₁)
      | cons q qs => exact ⟨q, qs, rfl⟩
    rw [List.map_cons, insertAll_cons, splitDot_joinDot k k₁ hdf, hsplit, insertPath,
      alookup_append_fresh acc k hacc (Doc.table t)]
    simp only [upsert_append_fresh acc k hacc]
    rw [insertAll_cons, hsplit]
    cases hres : insertPath t (q :: qs) v with
    | none => rfl
    | some t₁ => exact ih t₁ acc hacc

theorem insertAll_nflat : ∀ es : Entries, wfEntries es = true →
    ∀ acc : Entries, (∀ key ∈ keysOf es, key ∉ keysOf acc) →
    insertAll acc (nflat es) = some (acc ++ es) := by
  intro es
  induction es using nflat.induct with
  | case1 =>
    intro _ acc _
    rw [nflat, insertAll_nil]
    simp
  | case2 k v rest ih =>
    intro hwf acc hdisj
    obtain ⟨hdf, hnm, hwr⟩ := wfEntries_cons_scalar k v rest hwf
    have hkacc : k ∉ keysOf acc := hdisj k (List.mem_cons_self k (keysOf rest))
    rw [nflat, insertAll_cons, splitDot_dotFree k hdf, insertPath,
      upsert_not_mem acc k (Doc.scalar v) hkacc]
    have hres := ih hwr (acc ++ [(k, Doc.scalar v)]) ?_
    · rw [show ((some (acc ++ [(k, Doc.scalar v)])).bind
          (fun acc' => insertAll acc' (nflat rest))
            = insertAll (acc ++ [(k, Doc.scalar v)]) (nflat rest)) from rfl, hres]
      simp
    · intro key hk
      rw [keysOf, List.map_append]
      simp only [List.mem_append, not_or]
      constructor
      · exact hdisj key (List.mem_cons_of_mem k hk)
      · simp only [List.map_cons, List.map_nil, List.mem_singleton]
        intro hkey
        exact hnm (hkey ▸ hk)
  | case3 k sub rest ih1 ih2 =>
    intro hwf acc hdisj
    obtain ⟨hdf, hne, hwsub, hnm, hwr⟩ := wfEntries_cons_table k sub rest hwf
    have hkacc : k ∉ keysOf acc := hdisj k (List.mem_cons_self k (keysOf rest))
    rw [nflat, insertAll_append]
    have hsub : insertAll [] (nflat sub) = some sub := by
      have h := ih1 hwsub [] (fun key _ => List.not_mem_nil key)
      simpa using h
    have hpart1 : insertAll acc ((nflat sub).map (fun p => (joinDot k p.1, p.2)))
        = some (acc ++ [(k, Doc.table sub)]) := by
      obtain ⟨p₁, fl, hnf⟩ : ∃ p fl, nflat sub = p :: fl := by
        cases h : nflat sub with
        | nil => exact absurd h (nflat_ne_nil sub hwsub hne)
        | cons p fl => exact ⟨p, fl, rfl⟩
      cases p₁ with | mk k₁ v₁ =>
      obtain ⟨q, qs, hsplit⟩ : ∃ q qs, splitDot k₁ = q :: qs := by
        cases h : splitDot k₁ with
        | nil => exact absurd h (splitDot_ne_nil k₁)
        | cons q qs => exact ⟨q, qs, rfl⟩
      rw [hnf, List.map_cons, insertAll_cons, splitDot_joinDot k k₁ hdf, hsplit,
        insertPath, alookup_eq_none_of_not_mem acc k hkacc]
      rw [hnf, insertAll_cons, hsplit] at hsub
      cases hres : insertPath [] (q :: qs) v₁ with
      | none =>
        rw [hres] at hsub
        simp at hsub
      | some t₁ =>
        rw [hres] at hsub
        have hsub' : insertAll t₁ fl = some sub := hsub
        have hpre := insertAll_prefix k hdf fl t₁ acc hkacc
        rw [hsub'] at hpre
        exact hpre
    rw [hpart1]
    have hres := ih2 hwr (acc ++ [(k, Doc.table sub)]) ?_
    · rw [show ((some (acc ++ [(k, Doc.table sub)])).bind
          (fun a => insertAll a (nflat rest))
            = insertAll (acc ++ [(k, Doc.table sub)]) (nflat rest)) from rfl, hres]
      simp
    · intro key hk
      rw [keysOf, List.map_append]
      simp only [List.mem_append, not_or]
      constructor
      · exact hdisj key (List.mem_cons_of_mem k hk)
      · simp only [List.map_cons, List.map_nil, List.mem_singleton]
        intro hkey
        exact hnm (hkey ▸ hk)

/-- **C2** (amended): for every nested document whose keys are dot-free and
pairwise distinct at each level and whose sub-tables are all nonempty — in
particular no key path is both a branch and a leaf — flattening with
`get_item` and rebuilding with the dotted-key splitting of `save_config`
returns exactly the original document. -/
theorem flatten_unflatten_roundtrip (es : Entries) (h : wfEntries es = true) :
    unflatten (get_item [] es) = some es := by
  rw [unflatten_eq_insertAll,
    get_item_eq_nflat [] es h (fun key _ => List.not_mem_nil key)]
  have := insertAll_nflat es h [] (fun key _ => List.not_mem_nil key)
  simpa using this

theorem flatten_unflatten_roundtrip_witness :
    wfEntries
        [("python", Doc.table
            [("path", Doc.scalar (Value.vStr "/usr/bin/python3")),
             ("use_pyenv", Doc.scalar (Value.vBool true))]),
         ("cache_dir", Doc.scalar (Value.vStr "/c"))] = true
    ∧ unflatten (get_item []
        [("python", Doc.table
            [("path", Doc.scalar (Value.vStr "/usr/bin/python3")),
             ("use_pyenv", Doc.scalar (Value.vBool true))]),
         ("cache_dir", Doc.scalar (Value.vStr "/c"))])
      = some
        [("python", Doc.table
            [("path", Doc.scalar (Value.vStr "/usr/bin/python3")),
             ("use_pyenv", Doc.scalar (Value.vBool true))]),
         ("cache_dir", Doc.scalar (Value.vStr "/c"))] := by
  have hwf : wfEntries
      [("python", Doc.table
          [("path", Doc.scalar (Value.vStr "/usr/bin/python3")),
           ("use_pyenv", Doc.scalar (Value.vBool true))]),
       ("cache_dir", Doc.scalar (Value.vStr "/c"))] = true := by
    simp [wfEntries, dotFree, keysOf]
  exact ⟨hwf, flatten_unflatten_roundtrip _ hwf⟩

/-- **C2** (counterexample to the claim as stated): the empty table
`\x7ba = \x7b\x7d\x7d` vanishes in flattening (`get_item` emits no key for it), and
the single dotted key `"a.b"` at top level is re-nested by the splitting in
`save_config`; neither document uses any key path as both a branch and a
leaf, yet `unflatten (flatten D)` differs from `D` in both cases. -/
theorem flatten_unflatten_counterexample :
    (branchLeafClash (nflat [("a", Doc.table [])]) = false
      ∧ get_item [] [("a", Doc.table [])] = []
      ∧ unflatten (get_item [] [("a", Doc.table [])]) = some []
      ∧ ([] : Entries) ≠ [("a", Doc.table [])])
    ∧ (branchLeafClash (nflat [("a.b", Doc.scalar (Value.vInt 1))]) = false
      ∧ unflatten (get_item [] [("a.b", Doc.scalar (Value.vInt 1))])
          = some [("a", Doc.table [("b", Doc.scalar (Value.vInt 1))])]
      ∧ [("a", Doc.table [("b", Doc.scalar (Value.vInt 1))])]
          ≠ [("a.b", Doc.scalar (Value.vInt 1))]) := by
  refine ⟨⟨?_, ?_, ?_, ?_⟩, ⟨?_, ?_, ?_⟩⟩
  · simp [nflat, branchLeafClash, keysOf]
  · simp [get_item, aupdate]
  · simp [get_item, aupdate]
    rfl
  · simp
  · simp [nflat, branchLeafClash, keysOf]
  · simp [get_item, upsert]
    rfl
  · decide

end PdmConfig
